import Mathlib

/-!
Verification of the batch-correction notebook
(`notebooks/6.2_Batch_Correction.ipynb`) of the single-cell-bioinformatics
repository.

The notebook builds a synthetic sample-by-gene expression matrix, injects
batch-correlated and covariate-correlated noise, and corrects the noise with
an external ComBat routine and with ordinary least squares regression.

Modelling conventions:
* A pandas DataFrame is a `DFrame`: explicit row and column counts plus an
  entry function.  Float arithmetic is modelled exactly over `ℚ`.
* The numpy global random-number generator is a `RngState`: a stream of the
  standard-normal draws it will produce, plus a read position.  `np.random.seed`
  replaces the whole state by one determined by the seed alone; the mapping
  from seed to stream (the Mersenne Twister plus Gaussian transform) lives in
  numpy, outside this repository, so it is carried as an abstract parameter.
* Notebook assignments and pandas in-place mutation are modelled by a small
  heap: `PyState` maps addresses to frames and records which address each
  notebook variable holds, so that copy-vs-alias questions are expressible.
-/

namespace BatchCorrection

/-- A pandas DataFrame of rationals: row count, column count and entries.
Entries outside the declared bounds are irrelevant junk; all statements
below quantify only over in-range positions. -/
structure DFrame where
  nrows : ℕ
  ncols : ℕ
  entry : ℕ → ℕ → ℚ

instance : Inhabited DFrame := ⟨⟨0, 0, fun _ _ => 0⟩⟩

/-- Python floor division `int(n/2)` of a nonnegative count by two. -/
def half (n : ℕ) : ℕ := n / 2

/-- The pandas block update `data.iloc[r0:r1, c0:c1] += v`: add the constant `v` on a rectangular
block, leaving all other entries unchanged. -/
def ilocAddBlock (d : DFrame) (r0 r1 c0 c1 : ℕ) (v : ℚ) : DFrame :=
  ⟨d.nrows, d.ncols, fun i j =>
    if r0 ≤ i ∧ i < r1 ∧ c0 ≤ j ∧ j < c1 then d.entry i j + v else d.entry i j⟩

/-- The synthetic generator of the notebook, with the raw standard-normal
draws abstracted as `draw` (row-major, as produced by
`np.random.randn(size).reshape(n_samples, n_genes)`):

    data = pd.DataFrame(np.random.randn(size).reshape(n_samples, n_genes), ...)
    data.iloc[:half_samples, :half_genes] += 1
    data.iloc[:half_samples, half_genes:] += -1
    data.iloc[half_samples:, half_genes:] += 1
    data.iloc[half_samples:, :half_genes] += -1
-/
def makeData (draw : ℕ → ℚ) (nS nG : ℕ) : DFrame :=
  let base : DFrame := ⟨nS, nG, fun i j => draw (i * nG + j)⟩
  let d1 := ilocAddBlock base 0 (half nS) 0 (half nG) 1
  let d2 := ilocAddBlock d1 0 (half nS) (half nG) nG (-1)
  let d3 := ilocAddBlock d2 (half nS) nS (half nG) nG 1
  let d4 := ilocAddBlock d3 (half nS) nS 0 (half nG) (-1)
  d4

/-- The quadrant constant of the 2×2 block design: `+1` on (first samples,
first genes), `-1` on (first samples, second genes), `-1` on (second samples,
first genes), `+1` on (second samples, second genes). -/
def quadrantConst (nS nG i j : ℕ) : ℚ :=
  if i < half nS then (if j < half nG then 1 else -1)
  else (if j < half nG then -1 else 1)

/-- Decimal rendering padded on the left with zeros to width two, as
`str(i+1).zfill(2)` produces it. -/
def zfill2 (n : ℕ) : String :=
  let s := toString n
  if s.length < 2 then "0" ++ s else s

/-- A sample name: the text Sample_ followed by the 1-based row index
zero-filled to width two, as the notebook builds its sample list. -/
def sampleName (i : ℕ) : String := "Sample_" ++ zfill2 (i + 1)

/-- The label list: Mouse_01 repeated `int(n_samples/2)` times followed by
Mouse_02 repeated `int(n_samples/2)` times. -/
def mouseLabels (nS : ℕ) : List String :=
  List.replicate (half nS) "Mouse_01" ++ List.replicate (half nS) "Mouse_02"

/-- One step of Python dict construction: a duplicate key overwrites the
stored value in place, a new key is appended. -/
def dictInsert (acc : List (String × String)) (kv : String × String) : List (String × String) :=
  if (acc.map Prod.fst).contains kv.1
  then acc.map (fun p => if p.1 = kv.1 then kv else p)
  else acc ++ [kv]

/-- Python `dict(zip(keys, vals))` for string keys: `zip` truncates to the
shorter sequence, and a later duplicate key overwrites an earlier one.  The
association list is kept in insertion order of the surviving keys. -/
def pyDictZip (keys : List String) (vals : List String) : List (String × String) :=
  (List.zip keys vals).foldl dictInsert []

/-- The mouse series, a `pd.Series` built from the dict zipping `data.index`
against `mouseLabels`: one record per surviving key of the zipped dict. -/
def mouseGroups (nS : ℕ) : List (String × String) :=
  pyDictZip ((List.range nS).map sampleName) (mouseLabels nS)

/-! Section: the random-number generator and determinism of generation -/

/-- The numpy global RNG as seen by the notebook: the stream of
standard-normal values it will produce, and how many have been read. -/
structure RngState where
  stream : ℕ → ℚ
  pos : ℕ

/-- Seeding, `np.random.seed(seed)`: the previous generator state is discarded and
replaced by the state determined by the seed alone.  `seedStream` is the
(external, numpy-internal) map from seed to draw stream. -/
def npRandomSeed (seedStream : ℕ → ℕ → ℚ) (seed : ℕ) (_ : RngState) : RngState :=
  ⟨seedStream seed, 0⟩

/-- Drawing, `np.random.randn(size)` or `np.random.normal(size=size)` modulo scaling:
read `size` consecutive draws from the stream and advance the position. -/
def randn (st : RngState) (size : ℕ) : (ℕ → ℚ) × RngState :=
  (fun k => st.stream (st.pos + k), ⟨st.stream, st.pos + size⟩)

/-- One full run of the generation cell, as the notebook performs it:
seed the global RNG once at the start, then draw `n_samples * n_genes`
values and build the quadrant-shifted matrix. -/
def generateRun (seedStream : ℕ → ℕ → ℚ) (seed nS nG : ℕ) (st0 : RngState) : DFrame :=
  let st1 := npRandomSeed seedStream seed st0
  let (draw, _) := randn st1 (nS * nG)
  makeData draw nS nG

/-! Section: batch labels and batch-noise injection -/

/-- Python slicing `xs[::2]`: every second element, starting at index 0. -/
def everySecond : List α → List α
  | [] => []
  | [x] => [x]
  | x :: _ :: rest => x :: everySecond rest

/-- The slice `batch1_samples = samples[::2]` as row positions: the notebook slices the
sample list, which lists rows in order, so we slice the row positions. -/
def batch1Rows (nS : ℕ) : List ℕ := everySecond (List.range nS)

/-- The batch series, read at row `i`: a dict comprehension over the samples
assigns Batch_01 to members of `batch1_samples` and Batch_02 to the rest. -/
def batchSeries (nS i : ℕ) : String :=
  if i ∈ batch1Rows nS then "Batch_01" else "Batch_02"

/-- The parity description of the batch assignment: even 0-based rows in
`Batch_01`, odd rows in `Batch_02`. -/
def batchOf (i : ℕ) : String := if i % 2 = 0 then "Batch_01" else "Batch_02"

/-- The batch-noise cell:

    noisy_data = data.copy()
    noisy_data.ix[batch1_samples, :-2] += np.random.normal(size=n_genes-2, scale=2)
    noisy_data.ix[batch2_samples, :-2] += np.random.normal(size=n_genes-2, scale=2)

`noise1 j` (resp. `noise2 j`) is the draw added at gene position `j` to every
sample of batch 1 (even rows; resp. batch 2, the complement `batch2_samples =
data.index.difference(batch1_samples)`, the odd rows).  The column slice
`:-2` leaves the last two genes untouched. -/
def addBatchNoise (d : DFrame) (noise1 noise2 : ℕ → ℚ) : DFrame :=
  ⟨d.nrows, d.ncols, fun i j =>
    if j < d.ncols - 2 then
      d.entry i j + (if i % 2 = 0 then noise1 j else noise2 j)
    else d.entry i j⟩

/-! Section: covariate (RIN) noise and re-standardization -/

/-- The RIN column, `metadata["RIN"] = np.arange(len(samples)) + 0.5`. -/
def rin (s : ℕ) : ℚ := s + 1/2

/-- The RIN-noise frame:

    rin_noise = metadata["RIN"].apply(lambda x: pd.Series(np.ones(n_genes-2)*x, index=genes[1:-1]))
    rin_noise = rin_noise.reindex(columns=genes)
    rin_noise = rin_noise.fillna(0)

Interior genes (positions `1 .. n_genes-2`) of sample `s` receive the
constant `RIN s`; the first and last gene receive `0`. -/
def rinNoise (nS nG : ℕ) : DFrame :=
  ⟨nS, nG, fun s g => if 1 ≤ g ∧ g + 1 < nG then rin s else 0⟩

/-- Pandas `df1 + df2` on identically labelled frames: entrywise sum. -/
def dfAdd (d e : DFrame) : DFrame :=
  ⟨d.nrows, d.ncols, fun i j => d.entry i j + e.entry i j⟩

/-- Column mean over the `n = nrows` samples, as `df.mean()` computes it. -/
def colMean (d : DFrame) (g : ℕ) : ℚ :=
  (∑ s ∈ Finset.range d.nrows, d.entry s g) / d.nrows

/-- Column sample variance with pandas default `ddof=1`, the square of
`df.std()`. -/
def colVar (d : DFrame) (g : ℕ) : ℚ :=
  (∑ s ∈ Finset.range d.nrows, (d.entry s g - colMean d g) ^ 2) / (d.nrows - 1)

/-- Standardization, `(df - df.mean()) / df.std()`.  Here `df.std()` is the nonnegative square
root of `colVar`; since the square root leaves `ℚ`, the per-column standard
deviations are passed as `sd`, constrained in the theorems by
`sd g ^ 2 = colVar d g` (and nonvanishing, as division by a zero standard
deviation is degenerate in the source too). -/
def restandardize (d : DFrame) (sd : ℕ → ℚ) : DFrame :=
  ⟨d.nrows, d.ncols, fun s g => (d.entry s g - colMean d g) / sd g⟩

/-- The frame `rin_batchy_data`: add the RIN noise to the clean data, then
re-standardize every gene column. -/
def rinBatchy (d : DFrame) (sd : ℕ → ℚ) : DFrame :=
  restandardize (dfAdd d (rinNoise d.nrows d.ncols)) sd

/-! Section: ordinary-least-squares covariate correction -/

/-- Sum of squared deviations of the covariate over `n` samples. -/
def sxx (x : ℕ → ℚ) (n : ℕ) : ℚ :=
  ∑ s ∈ Finset.range n, (x s - (∑ t ∈ Finset.range n, x t) / n) ^ 2

/-- Modelled from the spec: `sklearn.linear_model.LinearRegression` (external
library, not in the repository) fits, per response column, one
ordinary-least-squares model with the continuous covariate as the sole
predictor plus an intercept.  For that design the unique least-squares
solution is the classical slope `Σ(x-x̄)(y-ȳ) / Σ(x-x̄)²`. -/
def olsSlope (x : ℕ → ℚ) (d : DFrame) (g : ℕ) : ℚ :=
  (∑ s ∈ Finset.range d.nrows,
      (x s - (∑ t ∈ Finset.range d.nrows, x t) / d.nrows) * (d.entry s g - colMean d g)) /
    sxx x d.nrows

/-- Modelled from the spec: the OLS intercept `ȳ - slope·x̄` of the same
external fit. -/
def olsIntercept (x : ℕ → ℚ) (d : DFrame) (g : ℕ) : ℚ :=
  colMean d g - olsSlope x d g * ((∑ t ∈ Finset.range d.nrows, x t) / d.nrows)

/-- The prediction `regressor.predict` at the RIN column, wrapped back into a frame
with the same samples and genes:

    rin_dependent_data = pd.DataFrame(regressor.predict(metadata["RIN"].to_frame()),
                                      columns=genes, index=samples)
-/
def rinDependent (x : ℕ → ℚ) (d : DFrame) : DFrame :=
  ⟨d.nrows, d.ncols, fun s g => olsIntercept x d g + olsSlope x d g * x s⟩

/-- The frame `rin_corrected_data = rin_batchy_data - rin_dependent_data`: observed
minus predicted, entrywise. -/
def rinCorrected (x : ℕ → ℚ) (d : DFrame) : DFrame :=
  ⟨d.nrows, d.ncols, fun s g => d.entry s g - (rinDependent x d).entry s g⟩

/-! Section: the ComBat wrapper and its design-model construction -/

/-- Sample metadata: column name to the list of that column's per-sample
values (rendered as strings; only presence and variation matter here). -/
def Metadata := List (String × List String)

/-- Membership of a name among the metadata columns, Python `v in metadata`. -/
def memColumn (v : String) (md : Metadata) : Bool :=
  (md.map Prod.fst).contains v

/-- Modelled from the spec: `patsy.dmatrix` on the one-variable formula, the external
design-matrix constructor.  Per the spec it must fail with a descriptive
configuration error when the named variable is absent from the metadata or
has no variation (is constant across samples); otherwise it returns the
design encoding of the column. -/
def dmatrix (v : String) (md : Metadata) : Except String (List String) :=
  match md.lookup v with
  | none => .error ("PatsyError: error evaluating factor: name " ++ v ++ " is not defined")
  | some col =>
    if col.dedup.length ≤ 1 then
      .error ("DesignError: variable " ++ v ++ " is constant across all samples; no variation to encode")
    else .ok col

/-- The wrapper of the notebook, with the external `combat` routine abstracted
as a parameter:

    def remove_batch_effects_with_combat(batch, keep_constant=None, ...):
        if keep_constant is not None or keep_constant in metadata:
            model = patsy.dmatrix(formula of keep_constant, metadata, return_type="dataframe")
        elif keep_constant == "null" or keep_constant is None:
            model = None
        corrected_data = combat(noisy_data.T, metadata[batch], model)
        ...

For `keep_constant = None` the first condition is false (`None in metadata`
is false over the string columns), so `model = None`; for any other value the
design model is built by `dmatrix` before `combat` runs, and a `dmatrix`
error propagates as an uncaught exception. -/
def removeBatchEffectsWithCombat
    (combat : DFrame → List String → Option (List String) → DFrame)
    (md : Metadata) (noisy : DFrame) (batch : String) (keepConstant : Option String) :
    Except String DFrame :=
  match keepConstant with
  | some v =>
    match dmatrix v md with
    | .error e => .error e
    | .ok model => .ok (combat noisy ((md.lookup batch).getD []) (some model))
  | none => .ok (combat noisy ((md.lookup batch).getD []) none)

/-! Section: the notebook heap of variables, copies and in-place mutation -/

/-- The notebook store: a heap of frames addressed by naturals, the next
free address, and the address each notebook variable currently holds. -/
structure PyState where
  heap : ℕ → DFrame
  next : ℕ
  dataRef : ℕ
  noisyRef : ℕ
  rinBatchyRef : ℕ
  rinCorrectedRef : ℕ

/-- Allocate a fresh frame on the heap, returning its address. -/
def alloc (st : PyState) (d : DFrame) : PyState × ℕ :=
  ({ st with heap := fun a => if a = st.next then d else st.heap a,
             next := st.next + 1 }, st.next)

/-- Overwrite the frame at an existing address (in-place mutation such as
`df.ix[...] += ...`). -/
def heapSet (st : PyState) (a : ℕ) (d : DFrame) : PyState :=
  { st with heap := fun b => if b = a then d else st.heap b }

/-- The batch-noise cell as a store transformation: `noisy_data =
data.copy()` allocates a fresh copy, and the two `.ix[...] += ...` lines
mutate that copy in place; the variable `noisy_data` is bound to the copy. -/
def stageBatchNoise (noise1 noise2 : ℕ → ℚ) (st : PyState) : PyState :=
  let (st1, r) := alloc st (st.heap st.dataRef)
  let st2 := heapSet st1 r (addBatchNoise (st1.heap r) noise1 noise2)
  { st2 with noisyRef := r }

/-- The RIN-noise cell as a store transformation: `rin_batchy_data = data +
rin_noise` allocates a new frame (pandas `+` is not in place), and the
re-assignment `rin_batchy_data = (rin_batchy_data - rin_batchy_data.mean())
/ rin_batchy_data.std()` allocates another and rebinds the variable. -/
def stageRinBatchy (sd : ℕ → ℚ) (st : PyState) : PyState :=
  let d := st.heap st.dataRef
  let (st1, r1) := alloc st (dfAdd d (rinNoise d.nrows d.ncols))
  let (st2, r2) := alloc st1 (restandardize (st1.heap r1) sd)
  { st2 with rinBatchyRef := r2 }

/-- The regression-correction cell: `rin_corrected_data = rin_batchy_data -
rin_dependent_data` allocates the difference frame and binds the variable. -/
def stageRinCorrected (st : PyState) : PyState :=
  let d := st.heap st.rinBatchyRef
  let (st1, r) := alloc st (rinCorrected rin d)
  { st1 with rinCorrectedRef := r }

/-- The mouse-group label of row `i`, read positionally from the label list
that the series construction zips against the row names: rows of the first
(floored) half are `Mouse_01`, the rest `Mouse_02`. -/
def mouseOf (nS i : ℕ) : String := (mouseLabels nS).getD i "Mouse_02"

/-! Section: concrete inputs used to instantiate the theorems -/

/-- A concrete raw-draw stream (nine draws for a 3-sample × 3-gene run),
chosen so the noisy columns have rational standard deviations. -/
def drawW : ℕ → ℚ := fun k =>
  if k = 0 then 0 else if k = 1 then 5/2 else if k = 2 then 2
  else if k = 3 then 3 else if k = 4 then 3/2 else if k = 5 then 1
  else if k = 6 then 4 else if k = 7 then 5/2 else 2

/-- The per-column standard deviations of
`dfAdd (makeData drawW 3 3) (rinNoise 3 3)`, whose columns are
`[1,2,3]`, `[2,4,6]`, `[1,2,3]`. -/
def sdW : ℕ → ℚ := fun g => if g = 1 then 2 else 1

/-- The 2-sample, 1-gene zero frame. -/
def zeroFrame : DFrame := ⟨2, 1, fun _ _ => 0⟩

/-- A concrete metadata table as built in the notebook
(`metadata = pd.concat([batches, mouse_groups], axis=1)`, then a RIN column). -/
def mdW : Metadata :=
  [("Batch", ["Batch_01", "Batch_02"]), ("Mouse", ["Mouse_01", "Mouse_02"]),
   ("RIN", ["0.5", "1.5"])]

/-- Metadata with an added constant column, to exercise the no-variation
failure of the design construction. -/
def mdConst : Metadata :=
  [("Batch", ["Batch_01", "Batch_02"]), ("Treatment", ["DMSO", "DMSO"])]

/-- A trivial stand-in for the external `combat` collaborator. -/
def combatW : DFrame → List String → Option (List String) → DFrame :=
  fun d _ _ => d

/-- A concrete store holding one frame, bound to `data`. -/
def stW : PyState :=
  ⟨fun _ => zeroFrame, 1, 0, 0, 0, 0⟩

/-- A concrete 2-sample × 4-gene frame used to instantiate the batch-noise
theorem. -/
def frame4 : DFrame := ⟨2, 4, fun i j => (i : ℚ) * 4 + j⟩

/-! Theorems. -/

/-- Claim C5: for every draw stream and counts, the generated matrix is the
raw standard-normal draw matrix plus the quadrant constant, which is `+1` on
(first samples, first genes), `-1` on (first samples, second genes), `-1` on
(second samples, first genes) and `+1` on (second samples, second genes). -/
theorem makeData_eq_draw_add_quadrant (draw : ℕ → ℚ) (nS nG i j : ℕ)
    (hi : i < nS) (hj : j < nG) :
    (makeData draw nS nG).entry i j = draw (i * nG + j) + quadrantConst nS nG i j := by
  simp only [makeData, ilocAddBlock, quadrantConst]
  split_ifs <;> first | ring1 | (exfalso; omega)

/-- Witness for C5 at a concrete input: at two samples and two genes with the
zero draw stream, the entry in the (first samples, second genes) quadrant is
`0 + (-1)`. -/
theorem makeData_eq_draw_add_quadrant_witness :
    (makeData (fun _ => 0) 2 2).entry 0 1 = 0 + quadrantConst 2 2 0 1 :=
  makeData_eq_draw_add_quadrant (fun _ => 0) 2 2 0 1 (by decide) (by decide)

/-- Claim C6: for every seed-to-stream map, seed and counts, two runs of the
generation cell — each seeding the global RNG once at its start — produce the
same matrix, whatever RNG states the runs started from: seeding discards the
prior state, so the output is a function of the seed alone. -/
theorem generateRun_deterministic (seedStream : ℕ → ℕ → ℚ) (seed nS nG : ℕ)
    (st st' : RngState) :
    generateRun seedStream seed nS nG st = generateRun seedStream seed nS nG st' := rfl

/-- Slicing `l ++ [a]` with step two keeps `a` exactly when `l` has even
length. -/
theorem everySecond_append_one (l : List α) (a : α) :
    everySecond (l ++ [a]) = everySecond l ++ (if l.length % 2 = 0 then [a] else []) := by
  induction l using everySecond.induct with
  | case1 => simp [everySecond]
  | case2 x => simp [everySecond]
  | case3 x y rest ih =>
    simp only [List.cons_append, everySecond, List.append_eq, List.length_cons,
      show (rest.length + 1 + 1) % 2 = rest.length % 2 from by omega]
    split_ifs with h
    · rw [ih, if_pos h]
    · rw [ih, if_neg h, List.append_nil]

/-- The slice `range(n)[::2]` is exactly the even numbers below `n`. -/
theorem mem_everySecond_range (n : ℕ) (i : ℕ) :
    i ∈ everySecond (List.range n) ↔ i < n ∧ i % 2 = 0 := by
  induction n with
  | zero => simp [everySecond]
  | succ m ih =>
    rw [List.range_succ, everySecond_append_one]
    simp only [List.length_range, List.mem_append, ih]
    by_cases h : m % 2 = 0 <;> simp [h] <;> omega

/-- Claim C4: the batch-noise injection partitions rows by parity (even rows
`Batch_01`, odd rows `Batch_02`, as the `samples[::2]` slice produces); for
every gene except the last two, all samples of a batch receive the same
additive shift for that gene, namely the single draw of that batch at that gene;
the last two gene columns are returned identical to the originals; and
(assuming the draws are nonzero, as normal draws are almost surely) every
other gene column is changed, so exactly the last two genes are invariant to
batch identity. -/
theorem addBatchNoise_spec (d : DFrame) (noise1 noise2 : ℕ → ℚ)
    (hc : 2 ≤ d.ncols) (hr : 1 ≤ d.nrows)
    (hnz : ∀ j, j < d.ncols - 2 → noise1 j ≠ 0 ∧ noise2 j ≠ 0) :
    (∀ i, i < d.nrows → batchSeries d.nrows i = batchOf i) ∧
    (∀ i j, j < d.ncols - 2 →
      (addBatchNoise d noise1 noise2).entry i j
        = d.entry i j + (if i % 2 = 0 then noise1 j else noise2 j)) ∧
    (∀ i i' j, i % 2 = i' % 2 → j < d.ncols - 2 →
      (addBatchNoise d noise1 noise2).entry i j - d.entry i j
        = (addBatchNoise d noise1 noise2).entry i' j - d.entry i' j) ∧
    (∀ i j, d.ncols - 2 ≤ j → (addBatchNoise d noise1 noise2).entry i j = d.entry i j) ∧
    (∀ j, j < d.ncols - 2 → (addBatchNoise d noise1 noise2).entry 0 j ≠ d.entry 0 j) := by
  refine ⟨?_, ?_, ?_, ?_, ?_⟩
  · intro i hi
    by_cases h : i % 2 = 0 <;>
      simp [batchSeries, batch1Rows, batchOf, mem_everySecond_range, hi, h]
  · intro i j hj
    simp [addBatchNoise, hj]
  · intro i i' j hpar hj
    simp [addBatchNoise, hj, hpar]
  · intro i j hj
    simp [addBatchNoise, show ¬(j < d.ncols - 2) from by omega]
  · intro j hj heq
    simp [addBatchNoise, hj] at heq
    exact (hnz j hj).1 heq

/-- Witness for C4 at a concrete frame: with unit and double noise draws on a
2×4 frame, the last column is unchanged and the first column is changed. -/
theorem addBatchNoise_spec_witness :
    (addBatchNoise frame4 (fun _ => 1) (fun _ => 2)).entry 0 3 = frame4.entry 0 3 ∧
    (addBatchNoise frame4 (fun _ => 1) (fun _ => 2)).entry 0 0 ≠ frame4.entry 0 0 :=
  ⟨(addBatchNoise_spec frame4 (fun _ => 1) (fun _ => 2) (by decide) (by decide)
      (by decide)).2.2.2.1 0 3 (by decide),
   (addBatchNoise_spec frame4 (fun _ => 1) (fun _ => 2) (by decide) (by decide)
      (by decide)).2.2.2.2 0 (by decide)⟩

/-- Reading the mouse-group labels positionally: the first floored half of
the rows is `Mouse_01`, the second `Mouse_02` (for rows covered by the label
list). -/
theorem mouseOf_eq (nS i : ℕ) (hi : i < 2 * half nS) :
    mouseOf nS i = if i < half nS then "Mouse_01" else "Mouse_02" := by
  unfold mouseOf mouseLabels
  rcases Nat.lt_or_ge i (half nS) with h | h
  · rw [if_pos h, List.getD_append _ _ _ _ (by simpa using h)]
    simp [List.getD_eq_getElem?_getD, List.getElem?_replicate, h]
  · rw [if_neg (by omega), List.getD_append_right _ _ _ _ (by simpa using h)]
    simp only [List.length_replicate]
    simp [List.getD_eq_getElem?_getD, List.getElem?_replicate,
      show i - half nS < half nS from by omega]

/-- Claim C10: for every even sample count of at least four, the parity
batches and the half-split mouse groups are crossed: each batch contains at
least one sample of each mouse group, and hence the preserved `Mouse`
covariate is not constant within either batch. -/
theorem batches_cross_mouse_groups (nS : ℕ) (h4 : 4 ≤ nS) (hev : nS % 2 = 0) :
    (∀ b ∈ ["Batch_01", "Batch_02"], ∀ m ∈ ["Mouse_01", "Mouse_02"],
      ∃ i, i < nS ∧ batchOf i = b ∧ mouseOf nS i = m) ∧
    (∀ b ∈ ["Batch_01", "Batch_02"],
      ∃ i j, i < nS ∧ j < nS ∧ batchOf i = b ∧ batchOf j = b ∧
        mouseOf nS i ≠ mouseOf nS j) := by
  have hhalf : 2 ≤ half nS := by unfold half; omega
  have h2 : 2 * half nS = nS := by unfold half; omega
  have key : ∀ b ∈ ["Batch_01", "Batch_02"], ∀ m ∈ ["Mouse_01", "Mouse_02"],
      ∃ i, i < nS ∧ batchOf i = b ∧ mouseOf nS i = m := by
    intro b hb m hm
    simp only [List.mem_cons, List.not_mem_nil, or_false] at hb hm
    rcases hb with hb | hb <;> rcases hm with hm | hm <;> subst hb <;> subst hm
    · -- Batch_01 ∩ Mouse_01: row 0
      refine ⟨0, by omega, ?_, ?_⟩
      · simp [batchOf]
      · rw [mouseOf_eq nS 0 (by omega), if_pos (by omega)]
    · -- Batch_01 ∩ Mouse_02: the first even row of the second half
      refine ⟨half nS + half nS % 2, by omega, ?_, ?_⟩
      · unfold batchOf; rw [if_pos (by omega)]
      · rw [mouseOf_eq nS _ (by omega), if_neg (by omega)]
    · -- Batch_02 ∩ Mouse_01: row 1
      refine ⟨1, by omega, ?_, ?_⟩
      · simp [batchOf]
      · rw [mouseOf_eq nS 1 (by omega), if_pos (by omega)]
    · -- Batch_02 ∩ Mouse_02: the first odd row of the second half
      refine ⟨half nS + 1 - half nS % 2, by omega, ?_, ?_⟩
      · unfold batchOf; rw [if_neg (by omega)]
      · rw [mouseOf_eq nS _ (by omega), if_neg (by omega)]
  refine ⟨key, ?_⟩
  intro b hb
  obtain ⟨i, hi, hbi, hmi⟩ := key b hb "Mouse_01" (by simp)
  obtain ⟨j, hj, hbj, hmj⟩ := key b hb "Mouse_02" (by simp)
  exact ⟨i, j, hi, hj, hbi, hbj, by rw [hmi, hmj]; decide⟩

/-- Witness for C10 at ten samples (the notebook's count): `Batch_01`
contains a `Mouse_02` sample. -/
theorem batches_cross_mouse_groups_witness :
    ∃ i, i < 10 ∧ batchOf i = "Batch_01" ∧ mouseOf 10 i = "Mouse_02" :=
  (batches_cross_mouse_groups 10 (by decide) (by decide)).1 "Batch_01" (by simp)
    "Mouse_02" (by simp)

/-- Deviations from the mean sum to zero. -/
theorem sum_sub_mean (n : ℕ) (f : ℕ → ℚ) (hn : 1 ≤ n) :
    ∑ s ∈ Finset.range n, (f s - (∑ t ∈ Finset.range n, f t) / n) = 0 := by
  rw [Finset.sum_sub_distrib, Finset.sum_const, Finset.card_range, nsmul_eq_mul]
  have : (n : ℚ) ≠ 0 := by positivity
  field_simp

/-- A re-standardized column has mean zero. -/
theorem colMean_restandardize (d : DFrame) (sd : ℕ → ℚ) (g : ℕ) (h1 : 1 ≤ d.nrows) :
    colMean (restandardize d sd) g = 0 := by
  have h := sum_sub_mean d.nrows (fun s => d.entry s g) h1
  simp only [colMean, restandardize, ← Finset.sum_div]
  simp only [colMean] at h ⊢
  rw [h]
  simp

/-- A column divided by its standard deviation (any nonzero root of its
sample variance) has sample variance one. -/
theorem colVar_restandardize (d : DFrame) (sd : ℕ → ℚ) (g : ℕ) (h2 : 2 ≤ d.nrows)
    (hv : sd g ^ 2 = colVar d g) (hnz : sd g ≠ 0) :
    colVar (restandardize d sd) g = 1 := by
  have hm := colMean_restandardize d sd g (by omega)
  have h2q : (2 : ℚ) ≤ (d.nrows : ℚ) := by exact_mod_cast h2
  have hden : ((d.nrows : ℚ) - 1) ≠ 0 := by linarith
  simp only [colVar, restandardize, hm, sub_zero] at *
  have hstep : ∀ s, ((d.entry s g - colMean d g) / sd g) ^ 2
      = (d.entry s g - colMean d g) ^ 2 / sd g ^ 2 := fun s => div_pow _ _ 2
  simp only [hstep, ← Finset.sum_div]
  rw [div_div, mul_comm, ← div_div, hv]
  exact div_self (hv ▸ pow_ne_zero 2 hnz)

/-- Claim C7: after adding the RIN noise (the sample's RIN value on all
interior genes, zero on the first and last gene — the shape of `rinNoise`)
and re-standardizing, every gene column of `rin_batchy_data` has mean zero
and sample variance one, i.e. standard deviation one.  The per-column
standard deviation `sd` is characterized as a nonzero root of the column's
sample variance, since square roots leave `ℚ`. -/
theorem rinBatchy_standardized (d : DFrame) (sd : ℕ → ℚ) (h2 : 2 ≤ d.nrows)
    (hsd : ∀ g, g < d.ncols →
      sd g ^ 2 = colVar (dfAdd d (rinNoise d.nrows d.ncols)) g ∧ sd g ≠ 0) :
    ∀ g, g < d.ncols →
      colMean (rinBatchy d sd) g = 0 ∧ colVar (rinBatchy d sd) g = 1 := by
  intro g hg
  obtain ⟨hv, hnz⟩ := hsd g hg
  constructor
  · exact colMean_restandardize (dfAdd d (rinNoise d.nrows d.ncols)) sd g
      (show 1 ≤ d.nrows by omega)
  · exact colVar_restandardize (dfAdd d (rinNoise d.nrows d.ncols)) sd g
      (show 2 ≤ d.nrows from h2) hv hnz

/-- Witness for C7: on the concrete 3×3 generated frame whose noisy columns
are `[1,2,3]`, `[2,4,6]`, `[1,2,3]`, the middle standardized column has mean
zero and variance one. -/
theorem rinBatchy_standardized_witness :
    colMean (rinBatchy (makeData drawW 3 3) sdW) 1 = 0 ∧
    colVar (rinBatchy (makeData drawW 3 3) sdW) 1 = 1 :=
  rinBatchy_standardized (makeData drawW 3 3) sdW (by decide)
    (by
      intro g hg
      have h3 : g < 3 := hg
      interval_cases g <;>
        norm_num [sdW, colVar, colMean, dfAdd, makeData, ilocAddBlock, rinNoise, rin,
          drawW, half, Finset.sum_range_succ])
    1 (by decide)

/-- Claim C8: the regression correction returns a matrix of the same shape
whose entries are observed minus predicted, where the predicted component
`intercept + slope · x` is the ordinary-least-squares fit on the sole
predictor `x` plus an intercept: the residuals satisfy both normal
equations — they sum to zero and are orthogonal to the centered covariate. -/
theorem rinCorrected_shape_and_ols (x : ℕ → ℚ) (d : DFrame)
    (h1 : 1 ≤ d.nrows) (hx : sxx x d.nrows ≠ 0) :
    (rinCorrected x d).nrows = d.nrows ∧ (rinCorrected x d).ncols = d.ncols ∧
    (∀ s g, (rinCorrected x d).entry s g
      = d.entry s g - (olsIntercept x d g + olsSlope x d g * x s)) ∧
    (∀ g, ∑ s ∈ Finset.range d.nrows, (rinCorrected x d).entry s g = 0) ∧
    (∀ g, ∑ s ∈ Finset.range d.nrows,
        (x s - (∑ t ∈ Finset.range d.nrows, x t) / d.nrows) * (rinCorrected x d).entry s g
      = 0) := by
  refine ⟨rfl, rfl, fun s g => rfl, ?_, ?_⟩
  · intro g
    have key : ∀ s, (rinCorrected x d).entry s g
        = (d.entry s g - (∑ t ∈ Finset.range d.nrows, d.entry t g) / d.nrows)
          - olsSlope x d g * (x s - (∑ t ∈ Finset.range d.nrows, x t) / d.nrows) := by
      intro s
      simp only [rinCorrected, rinDependent, olsIntercept, colMean]
      ring
    simp only [key]
    rw [Finset.sum_sub_distrib, sum_sub_mean d.nrows (fun s => d.entry s g) h1,
      ← Finset.mul_sum, sum_sub_mean d.nrows x h1]
    ring
  · intro g
    have key : ∀ s, (x s - (∑ t ∈ Finset.range d.nrows, x t) / d.nrows)
          * (rinCorrected x d).entry s g
        = (x s - (∑ t ∈ Finset.range d.nrows, x t) / d.nrows) * (d.entry s g - colMean d g)
          - olsSlope x d g * (x s - (∑ t ∈ Finset.range d.nrows, x t) / d.nrows) ^ 2 := by
      intro s
      simp only [rinCorrected, rinDependent, olsIntercept]
      ring
    simp only [key]
    rw [Finset.sum_sub_distrib, ← Finset.mul_sum]
    have hsxx : ∑ s ∈ Finset.range d.nrows,
        (x s - (∑ t ∈ Finset.range d.nrows, x t) / d.nrows) ^ 2 = sxx x d.nrows := rfl
    rw [hsxx, olsSlope, div_mul_cancel₀ _ hx, sub_self]

/-- Witness for C8 on the concrete two-sample frame with the RIN covariate:
the corrected entry at (0,0) is observed minus fitted. -/
theorem rinCorrected_shape_and_ols_witness :
    (rinCorrected rin zeroFrame).entry 0 0
      = zeroFrame.entry 0 0 - (olsIntercept rin zeroFrame 0 + olsSlope rin zeroFrame 0 * rin 0) :=
  (rinCorrected_shape_and_ols rin zeroFrame (by decide)
    (by norm_num [sxx, rin, zeroFrame, Finset.sum_range_succ])).2.2.1 0 0

/-- Counterexample for C1: applying the regression correction to the clean
generated matrix (zero draw stream, two samples, two genes, no injected
covariate noise) does not return the input: the entry at (0,0) moves from
`1` to `0`, a change of a full unit, beyond any numerical tolerance.  With
two samples the OLS line interpolates each gene column exactly, so the
correction zeroes the whole matrix. -/
theorem rinCorrected_changes_clean_input :
    (rinCorrected rin (makeData (fun _ => 0) 2 2)).entry 0 0 = 0 ∧
    (makeData (fun _ => 0) 2 2).entry 0 0 = 1 ∧
    (rinCorrected rin (makeData (fun _ => 0) 2 2)).entry 0 0
      ≠ (makeData (fun _ => 0) 2 2).entry 0 0 := by
  refine ⟨?_, ?_, ?_⟩ <;>
    norm_num [rinCorrected, rinDependent, olsIntercept, olsSlope, sxx, colMean,
      makeData, ilocAddBlock, half, rin, Finset.sum_range_succ]

/-- Claim C1 (amended): the regression correction leaves a matrix unchanged
precisely when every gene's fitted OLS line is identically zero, i.e. each
gene column has zero fitted slope against RIN and zero mean; clean data
(zero injected covariate noise) does not satisfy this in general. -/
theorem rinCorrected_id_iff_zero_fit (d : DFrame) (h2 : 2 ≤ d.nrows) :
    (∀ s g, s < d.nrows → g < d.ncols → (rinCorrected rin d).entry s g = d.entry s g)
    ↔ (∀ g, g < d.ncols → olsSlope rin d g = 0 ∧ colMean d g = 0) := by
  constructor
  · intro h g hg
    have h0 := h 0 g (by omega) hg
    have h1' := h 1 g (by omega) hg
    simp only [rinCorrected, rinDependent] at h0 h1'
    have e0 : olsIntercept rin d g + olsSlope rin d g * rin 0 = 0 := by linarith
    have e1 : olsIntercept rin d g + olsSlope rin d g * rin 1 = 0 := by linarith
    rw [show rin 0 = 1/2 from by norm_num [rin]] at e0
    rw [show rin 1 = 3/2 from by norm_num [rin]] at e1
    have hm : olsSlope rin d g = 0 := by linarith
    have hb : olsIntercept rin d g = 0 := by linarith
    refine ⟨hm, ?_⟩
    have hcm : colMean d g = olsIntercept rin d g
        + olsSlope rin d g * ((∑ t ∈ Finset.range d.nrows, rin t) / d.nrows) := by
      simp only [olsIntercept]; ring
    rw [hcm, hm, hb]; ring
  · intro h s g hs hg
    obtain ⟨hm, hmean⟩ := h g hg
    simp only [rinCorrected, rinDependent, olsIntercept, hm, hmean]
    ring

/-- Witness for the amended C1: the all-zero two-sample frame has zero
fitted slope and zero mean in its only gene, so the correction fixes it. -/
theorem rinCorrected_id_iff_zero_fit_witness :
    (rinCorrected rin zeroFrame).entry 0 0 = zeroFrame.entry 0 0 :=
  (rinCorrected_id_iff_zero_fit zeroFrame (by decide)).mpr
    (fun g _ => by
      constructor <;>
        norm_num [olsSlope, colMean, zeroFrame, sxx, rin, Finset.sum_range_succ])
    0 0 (by decide) (by decide)

/-- Overwriting the value stored under an existing key leaves the key list
unchanged. -/
theorem keys_replace (acc : List (String × String)) (kv : String × String) :
    (acc.map (fun p => if p.1 = kv.1 then kv else p)).map Prod.fst = acc.map Prod.fst := by
  rw [List.map_map]
  apply List.map_congr_left
  intro p _
  by_cases hp : p.1 = kv.1 <;> simp [hp]

/-- The keys after one dict insertion are the old keys plus the new key. -/
theorem keys_dictInsert (acc : List (String × String)) (kv : String × String) (a : String) :
    a ∈ (dictInsert acc kv).map Prod.fst ↔ a ∈ acc.map Prod.fst ∨ a = kv.1 := by
  unfold dictInsert
  split_ifs with h
  · rw [keys_replace]
    replace h : kv.1 ∈ acc.map Prod.fst := by simpa using h
    constructor
    · exact Or.inl
    · rintro (h' | rfl)
      · exact h'
      · exact h
  · simp

/-- Dict insertion preserves distinctness of keys. -/
theorem keys_nodup_dictInsert (acc : List (String × String)) (kv : String × String)
    (h : (acc.map Prod.fst).Nodup) : ((dictInsert acc kv).map Prod.fst).Nodup := by
  unfold dictInsert
  split_ifs with hc
  · rw [keys_replace]; exact h
  · replace hc : kv.1 ∉ acc.map Prod.fst := by simpa using hc
    simp [List.nodup_append, h, hc]

/-- Membership among a Python dict's keys is membership among the inserted
keys. -/
theorem keys_foldl_mem (l : List (String × String)) :
    ∀ (acc : List (String × String)) (a : String),
      a ∈ ((l.foldl dictInsert acc).map Prod.fst)
        ↔ a ∈ acc.map Prod.fst ∨ a ∈ l.map Prod.fst := by
  induction l with
  | nil => simp
  | cons kv l ih =>
    intro acc a
    simp only [List.foldl_cons, ih, keys_dictInsert, List.map_cons, List.mem_cons]
    tauto

/-- A Python dict never holds a key twice. -/
theorem keys_foldl_nodup (l : List (String × String)) :
    ∀ acc : List (String × String),
      (acc.map Prod.fst).Nodup → (((l.foldl dictInsert acc).map Prod.fst)).Nodup := by
  induction l with
  | nil => simp
  | cons kv l ih =>
    intro acc h
    exact ih _ (keys_nodup_dictInsert acc kv h)

/-- Counterexample for C2: at five samples the label list
`['Mouse_01']*2 + ['Mouse_02']*2` has four entries, Python `zip` truncates,
and the mouse series has only four records — the fifth row `Sample_05` of
the generated matrix has no record, so the series does not cover every row. -/
theorem mouseGroups_misses_row_at_five :
    (mouseGroups 5).length = 4 ∧ sampleName 4 ∉ (mouseGroups 5).map Prod.fst ∧
    (makeData (fun _ => 0) 5 20).nrows = 5 := by
  refine ⟨?_, ?_, rfl⟩ <;> decide

/-- Claim C2 (amended): samples and genes are split at the integer-floored
half-point with the extra row/column going to the second half; the mouse
series never repeats a key, and when the sample count is even it covers
every row of the generated matrix; for odd sample counts the zip truncation
leaves the last row without a record. -/
theorem split_and_mouse_coverage (nS nG : ℕ) :
    (half nS + (nS - half nS) = nS ∧ half nG + (nG - half nG) = nG ∧
     (nS % 2 = 1 → nS - half nS = half nS + 1) ∧
     (nG % 2 = 1 → nG - half nG = half nG + 1)) ∧
    ((mouseGroups nS).map Prod.fst).Nodup ∧
    (nS % 2 = 0 → ∀ i, i < nS → sampleName i ∈ (mouseGroups nS).map Prod.fst) := by
  refine ⟨⟨?_, ?_, ?_, ?_⟩, ?_, ?_⟩
  · unfold half; omega
  · unfold half; omega
  · unfold half; omega
  · unfold half; omega
  · exact keys_foldl_nodup _ [] (by simp)
  · intro hev i hi
    unfold mouseGroups pyDictZip
    rw [keys_foldl_mem]
    refine Or.inr ?_
    have hlen : ((List.range nS).map sampleName).length ≤ (mouseLabels nS).length := by
      simp [mouseLabels, half]
      omega
    rw [List.map_fst_zip _ _ hlen]
    exact List.mem_map.mpr ⟨i, List.mem_range.mpr hi, rfl⟩

/-- Witness for the amended C2: at the notebook's ten samples the last row
is covered, and at five samples the second half would get the extra row. -/
theorem split_and_mouse_coverage_witness :
    sampleName 9 ∈ (mouseGroups 10).map Prod.fst ∧ 5 - half 5 = half 5 + 1 :=
  ⟨(split_and_mouse_coverage 10 20).2.2 (by decide) 9 (by decide),
   (split_and_mouse_coverage 5 20).1.2.2.1 (by decide)⟩

/-- Claim C3: naming a `keep_constant` variable that is missing from the
metadata, or that is constant across samples, makes the wrapper fail with
the design-construction error — whatever the `combat` routine would do, it
is never consulted. -/
theorem combatWrapper_design_error (md : Metadata) (noisy : DFrame) (batch v : String) :
    ((md.lookup v = none) →
      ∀ combat, removeBatchEffectsWithCombat combat md noisy batch (some v)
        = .error ("PatsyError: error evaluating factor: name " ++ v ++ " is not defined")) ∧
    (∀ col, md.lookup v = some col → col.dedup.length ≤ 1 →
      ∀ combat, removeBatchEffectsWithCombat combat md noisy batch (some v)
        = .error ("DesignError: variable " ++ v
            ++ " is constant across all samples; no variation to encode")) := by
  constructor
  · intro h combat
    simp [removeBatchEffectsWithCombat, dmatrix, h]
  · intro col hcol hconst combat
    simp [removeBatchEffectsWithCombat, dmatrix, hcol, hconst]

/-- Witness for C3: on concrete metadata, a missing variable and a constant
variable each produce the corresponding configuration error. -/
theorem combatWrapper_design_error_witness :
    removeBatchEffectsWithCombat combatW mdW zeroFrame "Batch" (some "CellCycle")
      = .error ("PatsyError: error evaluating factor: name " ++ "CellCycle"
          ++ " is not defined") ∧
    removeBatchEffectsWithCombat combatW mdConst zeroFrame "Batch" (some "Treatment")
      = .error ("DesignError: variable " ++ "Treatment"
          ++ " is constant across all samples; no variation to encode") :=
  ⟨(combatWrapper_design_error mdW zeroFrame "Batch" "CellCycle").1 (by decide) combatW,
   (combatWrapper_design_error mdConst zeroFrame "Batch" "Treatment").2
     ["DMSO", "DMSO"] (by decide) (by decide) combatW⟩

/-- The batch-noise cell mutates only its fresh copy: heap cells below the
allocation frontier are untouched. -/
theorem stageBatchNoise_below (n1 n2 : ℕ → ℚ) (st : PyState) (a : ℕ) (h : a < st.next) :
    (stageBatchNoise n1 n2 st).heap a = st.heap a := by
  simp only [stageBatchNoise, alloc, heapSet]
  simp [show a ≠ st.next from by omega]

/-- The batch-noise cell allocates one frame and leaves `data`'s binding
alone. -/
theorem stageBatchNoise_frame (n1 n2 : ℕ → ℚ) (st : PyState) :
    (stageBatchNoise n1 n2 st).next = st.next + 1 ∧
    (stageBatchNoise n1 n2 st).dataRef = st.dataRef := ⟨rfl, rfl⟩

/-- The RIN-noise cell only allocates: old heap cells are untouched. -/
theorem stageRinBatchy_below (sd : ℕ → ℚ) (st : PyState) (a : ℕ) (h : a < st.next) :
    (stageRinBatchy sd st).heap a = st.heap a := by
  simp only [stageRinBatchy, alloc]
  simp [show a ≠ st.next + 1 from by omega, show a ≠ st.next from by omega]

/-- The RIN-noise cell allocates two frames, binds `rin_batchy_data` to the
second, and leaves `data`'s binding alone. -/
theorem stageRinBatchy_frame (sd : ℕ → ℚ) (st : PyState) :
    (stageRinBatchy sd st).next = st.next + 2 ∧
    (stageRinBatchy sd st).dataRef = st.dataRef ∧
    (stageRinBatchy sd st).rinBatchyRef = st.next + 1 := ⟨rfl, rfl, rfl⟩

/-- The regression-correction cell only allocates: old heap cells are
untouched. -/
theorem stageRinCorrected_below (st : PyState) (a : ℕ) (h : a < st.next) :
    (stageRinCorrected st).heap a = st.heap a := by
  simp only [stageRinCorrected, alloc]
  simp [show a ≠ st.next from by omega]

/-- The regression-correction cell allocates one frame and leaves the
`data` and `rin_batchy_data` bindings alone. -/
theorem stageRinCorrected_frame (st : PyState) :
    (stageRinCorrected st).next = st.next + 1 ∧
    (stageRinCorrected st).dataRef = st.dataRef ∧
    (stageRinCorrected st).rinBatchyRef = st.rinBatchyRef := ⟨rfl, rfl, rfl⟩

/-- Claim C9: each transformation stage writes only its own freshly
allocated output.  The matrix `data` refers to is bit-for-bit unchanged
after batch-noise injection, still unchanged after covariate-noise injection
and re-standardization, and the covariate-noisy matrix is unchanged by the
regression correction; the `data` binding itself is never rebound. -/
theorem stages_preserve_inputs (st : PyState) (noise1 noise2 sd : ℕ → ℚ)
    (hd : st.dataRef < st.next) :
    (stageBatchNoise noise1 noise2 st).heap st.dataRef = st.heap st.dataRef ∧
    (stageRinBatchy sd (stageBatchNoise noise1 noise2 st)).heap st.dataRef
      = st.heap st.dataRef ∧
    (stageRinCorrected (stageRinBatchy sd (stageBatchNoise noise1 noise2 st))).heap st.dataRef
      = st.heap st.dataRef ∧
    (stageRinCorrected (stageRinBatchy sd (stageBatchNoise noise1 noise2 st))).heap
        (stageRinBatchy sd (stageBatchNoise noise1 noise2 st)).rinBatchyRef
      = (stageRinBatchy sd (stageBatchNoise noise1 noise2 st)).heap
        (stageRinBatchy sd (stageBatchNoise noise1 noise2 st)).rinBatchyRef ∧
    (stageBatchNoise noise1 noise2 st).dataRef = st.dataRef ∧
    (stageRinBatchy sd (stageBatchNoise noise1 noise2 st)).dataRef = st.dataRef ∧
    (stageRinCorrected (stageRinBatchy sd (stageBatchNoise noise1 noise2 st))).dataRef
      = st.dataRef := by
  have h1 := stageBatchNoise_frame noise1 noise2 st
  have h2 := stageRinBatchy_frame sd (stageBatchNoise noise1 noise2 st)
  have h3 := stageRinCorrected_frame (stageRinBatchy sd (stageBatchNoise noise1 noise2 st))
  refine ⟨stageBatchNoise_below noise1 noise2 st st.dataRef hd, ?_, ?_, ?_, h1.2, ?_, ?_⟩
  · rw [stageRinBatchy_below sd _ _ (by omega),
      stageBatchNoise_below noise1 noise2 st st.dataRef hd]
  · rw [stageRinCorrected_below _ _ (by omega), stageRinBatchy_below sd _ _ (by omega),
      stageBatchNoise_below noise1 noise2 st st.dataRef hd]
  · exact stageRinCorrected_below _ _ (by omega)
  · rw [h2.2.1, h1.2]
  · rw [h3.2.1, h2.2.1, h1.2]

/-- Witness for C9 at a concrete store: after the batch-noise stage the
frame bound to `data` is unchanged. -/
theorem stages_preserve_inputs_witness :
    (stageBatchNoise (fun _ => 1) (fun _ => 1) stW).heap stW.dataRef
      = stW.heap stW.dataRef :=
  (stages_preserve_inputs stW (fun _ => 1) (fun _ => 1) (fun _ => 1) (by decide)).1

end BatchCorrection
